import Mathlib

/-!
Verification of the chunk-extraction engine of the semantic-code-search
repository against its specification.

The development shallowly embeds the Rust sources:

* `src/languages.rs` — the language registry (`get_languages`); the
  tree-sitter backed `Splitter` of each entry is an external collaborator
  (spec §1 explicitly excludes it), so each `Language` carries an abstract
  `splitFn : String → Except String (List SplitterChunk)` standing for
  `Splitter::split` applied to the file bytes.
* `src/split.rs` — `split_file`, `process_file`, the `Iterator` for
  `CodeFileSplitter` (embedded as a full drain, which is how the only
  caller `find_and_split` consumes it), and `find_and_split` itself.
  Filesystem state is an explicit tree of entries; `fs::File::create` and
  `ParquetWriter::finish` outcomes are explicit boolean parameters.
  Rust panics (`unwrap` on `None`, out-of-bounds slicing) are made explicit
  as the `Panic` error of an `Except`.
* `src/index.rs` — the create-or-append branch of `index`, driven by the
  result of the `open_table` existence probe.

Modelling notes, all stated where they matter:
* strings are assumed valid UTF-8 (`to_str` never fails), and
  `entry.metadata()` is assumed to succeed — neither failure mode is
  exercised by any claim;
* file reading is folded into `splitFn`: an unreadable or unparsable file
  is a `splitFn` returning `.error`, which is exactly how `split_file`
  surfaces both `fs::File::open` failures and splitter failures;
* the drain carries fuel bounding the directory-descent depth; the
  traversal descends into at most one directory per round (this is in
  fact the defect recorded at `CodeFileSplitter::next`, lines 77–81), so
  any fuel at least the tree depth is exact.
-/

namespace SemanticCodeSearch

/-- A chunk as reported by the external syntax splitter: the row range
(`range.start_point.row`, `range.end_point.row`) and the splitter weight
(`chunk.size`). Byte offsets are never consulted by the core, so they are
omitted. -/
structure SplitterChunk where
  startRow : Nat
  endRow : Nat
  size : Nat
  deriving DecidableEq, Repr

/-- One entry of the language registry of `src/languages.rs`. The
tree-sitter splitter handle is abstracted to the function it denotes. -/
structure Language where
  name : String
  extensions : List String
  splitFn : String → Except String (List SplitterChunk)

/-- The registry built by `init_languages`/`get_languages`
(`src/languages.rs`, lines 13–56): four entries, in this order, with
singleton extension sets. The four splitter handles are parameters. -/
def get_languages (js rs py ts : String → Except String (List SplitterChunk)) :
    List Language :=
  [ { name := "javascript", extensions := ["js"], splitFn := js },
    { name := "rust", extensions := ["rs"], splitFn := rs },
    { name := "python", extensions := ["py"], splitFn := py },
    { name := "typescript", extensions := ["ts"], splitFn := ts } ]

/-- `ChunkMetadata` of `src/split.rs` (lines 14–22); `u64` fields carry
small row counts and weights, represented as `Nat`. -/
structure ChunkMetadata where
  file_path : String
  file_name : String
  start_line : Nat
  end_line : Nat
  text : Option String
  size : Nat
  deriving DecidableEq, Repr

/-- Helper for `rustLines`: `cur` is the reversed current line.
Mirrors `BufRead::lines`: lines are terminated by a newline byte, the
terminator and an immediately preceding carriage return are stripped, and
a final unterminated fragment is kept unless it is empty. -/
def rustLinesAux (cur : List Char) : List Char → List String
  | [] => if cur.isEmpty then [] else [String.mk cur.reverse]
  | c :: rest =>
    if c = '\n' then
      (match cur with
        | '\r' :: cur2 => String.mk cur2.reverse
        | _ => String.mk cur.reverse) :: rustLinesAux [] rest
    else
      rustLinesAux (c :: cur) rest

/-- The line view of a file read by `split_file` (`src/split.rs`, line 93):
`reader.lines().collect()` with terminators stripped. -/
def rustLines (content : String) : List String :=
  rustLinesAux [] content.toList

/-- `[String]::join("\n")` as used at `src/split.rs` line 131. -/
def joinLines : List String → String
  | [] => ""
  | [l] => l
  | l :: l2 :: ls => l ++ "\n" ++ joinLines (l2 :: ls)

/-- Rust slice indexing `lines[a..b]`: defined exactly when `a ≤ b` and
`b ≤ lines.len()`; out of range indexing panics, here `none`. -/
def sliceRange (xs : List String) (a b : Nat) : Option (List String) :=
  if a ≤ b ∧ b ≤ xs.length then some ((xs.drop a).take (b - a)) else none

/-- Helper for `extOf`: the suffix after the last dot of the list, if any
dot occurs. -/
def afterLastDot : List Char → Option (List Char)
  | [] => none
  | c :: rest =>
    match afterLastDot rest with
    | some e => some e
    | none => if c = '.' then some rest else none

/-- `Path::extension` on a final path component: `none` when the name has
no embedded dot, or when its only dot is the leading one (hidden files);
otherwise the text after the last dot. -/
def extOf (name : String) : Option String :=
  match name.toList with
  | [] => none
  | c :: rest =>
    match afterLastDot (if c = '.' then rest else c :: rest) with
    | some e => some (String.mk e)
    | none => none

/-- The two ways the embedded code can panic: `Option::unwrap` on `None`
(`path.extension().unwrap()`, `src/split.rs` line 104) and slice indexing
out of range (`src/split.rs` lines 129–131). -/
inductive Panic where
  | unwrapNone
  | sliceOutOfRange
  deriving DecidableEq, Repr

/-- The record built for one splitter chunk in the loop of `process_file`
(`src/split.rs`, lines 117–136), assuming the slice is in range:
row bounds are passed through verbatim, and `text` is
`Some(joined).filter(|x| !x.is_empty())`. -/
def recordOfChunk (fp fn : String) (lines : List String) (c : SplitterChunk) :
    ChunkMetadata :=
  let t := joinLines ((lines.drop c.startRow).take (c.endRow - c.startRow))
  { file_path := fp
    file_name := fn
    start_line := c.startRow
    end_line := c.endRow
    text := if t = "" then none else some t
    size := c.size }

/-- The chunk loop of `process_file` (`src/split.rs`, lines 116–136): each
splitter chunk slices `lines[startRow..endRow]` — panicking if the range is
out of bounds — and yields a `ChunkMetadata`. -/
def buildChunks (fp fn : String) (lines : List String) :
    List SplitterChunk → Except Panic (List ChunkMetadata)
  | [] => .ok []
  | c :: cs =>
    match sliceRange lines c.startRow c.endRow with
    | none => .error .sliceOutOfRange
    | some _ =>
      (buildChunks fp fn lines cs).map (fun rest => recordOfChunk fp fn lines c :: rest)

/-- `FileContent` of `src/split.rs` (lines 9–12). -/
structure FileContent where
  lines : List String
  chunks : List SplitterChunk

/-- `CodeFileSplitter::split_file` (`src/split.rs`, lines 88–101): both the
line view and the raw view come from the same content; open/read failures
and splitter failures are the `.error` cases of `splitFn`. -/
def split_file (splitFn : String → Except String (List SplitterChunk))
    (content : String) : Except String FileContent :=
  (splitFn content).map (fun cs => { lines := rustLines content, chunks := cs })

/-- The part of `process_file` after a language was found (`src/split.rs`,
lines 110–138): run `split_file`; on error, report the failure and
contribute no chunks (`.ok none`); on success build the records. -/
def chunksForLang (lang : Language) (fp fn content : String) :
    Except Panic (Option (List ChunkMetadata)) :=
  match split_file lang.splitFn content with
  | .error _ => .ok none
  | .ok fc => (buildChunks fp fn fc.lines fc.chunks).map some

/-- `CodeFileSplitter::process_file` (`src/split.rs`, lines 103–141):
`path.extension().unwrap()` panics when the extension is absent; dispatch
takes the first registry entry whose extension set contains the extension
(`filter(..).map(..).next()?`), returning `None` when there is none. -/
def process_file (langs : List Language) (fp fn content : String) :
    Except Panic (Option (List ChunkMetadata)) :=
  match extOf fn with
  | none => .error .unwrapNone
  | some ext =>
    match langs.find? (fun l => l.extensions.contains ext) with
    | none => .ok none
    | some lang => chunksForLang lang fp fn content

/-- A filesystem entry: a regular file with its content, or a directory
with its readability (whether `fs::read_dir` succeeds on it) and entries
in enumeration order. -/
inductive FsEntry where
  | file (name : String) (content : String)
  | dir (name : String) (readable : Bool) (entries : List FsEntry)

/-- A directory pushed on the `directories` stack of `CodeFileSplitter`. -/
structure PendingDir where
  path : String
  readable : Bool
  entries : List FsEntry

/-- The entries loop of `CodeFileSplitter::next` (`src/split.rs`, lines
51–74): the current `ReadDir` cursor is drained completely; directory
entries are pushed (in enumeration order) for later visiting and files are
handed to `process_file`, whose chunks are appended in order. A file panic
aborts the whole iteration. -/
def processEntries (langs : List Language) (dirPath : String) :
    List FsEntry → Except Panic (List ChunkMetadata × List PendingDir)
  | [] => .ok ([], [])
  | .dir name readable sub :: rest =>
    (processEntries langs dirPath rest).map
      (fun r => (r.1, { path := dirPath ++ "/" ++ name
                        readable := readable
                        entries := sub } :: r.2))
  | .file name content :: rest =>
    match process_file langs (dirPath ++ "/" ++ name) name content with
    | .error p => .error p
    | .ok none => processEntries langs dirPath rest
    | .ok (some cs) =>
      (processEntries langs dirPath rest).map (fun r => (cs ++ r.1, r.2))

/-- The directories loop of `CodeFileSplitter::next` (`src/split.rs`, lines
77–81): `while let Some(d) = directories.pop()` pops the ENTIRE stack, and
each successful `read_dir` overwrites `self.entries`; the cursor that
survives is the one of the first readable directory in vector order (it is
popped last). -/
def findFirstReadable : List PendingDir → Option PendingDir
  | [] => none
  | d :: rest => if d.readable then some d else findFirstReadable rest

/-- Full drain of the `CodeFileSplitter` iterator starting from a readable
directory, as consumed by `find_and_split`. One round per recursion step:
drain the current cursor, then keep only the first readable pushed
directory (the others are discarded by the loop at lines 77–81). Fuel
bounds the descent depth; each round descends into at most one directory,
so fuel at least the tree depth reproduces the iteration exactly. -/
def codeFileSplitterDrain (langs : List Language) :
    Nat → String → List FsEntry → Except Panic (List ChunkMetadata)
  | 0, _, _ => .ok []
  | fuel + 1, dirPath, es =>
    match processEntries langs dirPath es with
    | .error p => .error p
    | .ok r =>
      match findFirstReadable r.2 with
      | none => .ok r.1
      | some d =>
        (codeFileSplitterDrain langs fuel d.path d.entries).map (fun more => r.1 ++ more)

/-- The six parallel column vectors assembled by `find_and_split`
(`src/split.rs`, lines 162–186). -/
structure Dataset where
  file_paths : List String
  file_names : List String
  start_lines : List Nat
  end_lines : List Nat
  texts : List String
  sizes : List Nat
  deriving DecidableEq, Repr

/-- The assembler loop of `find_and_split` (`src/split.rs`, lines 169–178):
a record is appended to the six columns exactly when its `text` is
present. -/
def assemble : List ChunkMetadata → Dataset
  | [] => { file_paths := [], file_names := [], start_lines := []
            end_lines := [], texts := [], sizes := [] }
  | r :: rs =>
    let d := assemble rs
    match r.text with
    | none => d
    | some t =>
      { file_paths := r.file_path :: d.file_paths
        file_names := r.file_name :: d.file_names
        start_lines := r.start_line :: d.start_lines
        end_lines := r.end_line :: d.end_lines
        texts := t :: d.texts
        sizes := r.size :: d.sizes }

/-- Outcome of one `find_and_split` call: a Rust panic unwinding through
it, an error result (`Err(String)`), or success. On success the assembled
dataset (which the source hands to the parquet writer) is returned so that
properties of the written rows can be stated. -/
inductive RunResult where
  | panicked (p : Panic)
  | failed (e : String)
  | ok (d : Dataset)
  deriving DecidableEq, Repr

/-- `find_and_split` (`src/split.rs`, lines 158–193): create the output
file first (failure is an immediate error result), drain the splitter,
assemble the kept records, then write. `df!` cannot fail here (the six
vectors are built with equal lengths), so serialization failure is the
parquet write, `writeOk`. The root is a readable directory given by its
path and entries. -/
def find_and_split (langs : List Language) (fuel : Nat) (rootPath : String)
    (rootEntries : List FsEntry) (createOk writeOk : Bool) : RunResult :=
  if createOk then
    match codeFileSplitterDrain langs fuel rootPath rootEntries with
    | .error p => .panicked p
    | .ok records =>
      if writeOk then .ok (assemble records) else .failed "write failed"
  else
    .failed "create failed"

/-- A file is reachable from a directory (given by path and entries) when
it is one of its entries or reachable from a readable sub-directory.
Entry paths are formed as in `DirEntry::path` (parent path, separator,
name). -/
inductive ReachesFile : String → List FsEntry → String → Prop where
  | here (dirPath : String) (es : List FsEntry) (name content : String)
      (hm : FsEntry.file name content ∈ es) :
      ReachesFile dirPath es (dirPath ++ "/" ++ name)
  | deeper (dirPath : String) (es : List FsEntry) (name : String)
      (sub : List FsEntry) (p : String)
      (hm : FsEntry.dir name true sub ∈ es)
      (hr : ReachesFile (dirPath ++ "/" ++ name) sub p) :
      ReachesFile dirPath es p

/-! ### The vector-store indexing entry point (`src/index.rs`) -/

/-- A handle to an opened table of the vector store. -/
structure TableHandle where
  name : String
  deriving DecidableEq, Repr

/-- The action `index` takes on the store after the existence probe
(`src/index.rs`, lines 14–24): create the table from the batch, or append
the batch to the opened table. -/
inductive IndexAction where
  | createTable (batch : List String)
  | appendRows (t : TableHandle) (batch : List String)
  deriving DecidableEq, Repr

/-- The branch of `index` on the `open_table("codebases")` probe
(`src/index.rs`, lines 14–24): any probe error selects table creation;
a successful probe selects appending to the opened table. -/
def indexBranch (probeResult : Except String TableHandle)
    (batch : List String) : IndexAction :=
  match probeResult with
  | .error _ => .createTable batch
  | .ok t => .appendRows t batch

/-- `index` (`src/index.rs`, lines 5–27) up to the store mutation: opening
the parquet input and building the record batch reader happen first and
propagate their error; then the probe decides the action. -/
def index (batchResult : Except String (List String))
    (probeResult : Except String TableHandle) : Except String IndexAction :=
  match batchResult with
  | .error e => .error e
  | .ok batch => .ok (indexBranch probeResult batch)

/-! ### Concrete fixtures -/

/-- A splitter stub producing one chunk spanning the first line. -/
def oneChunk : String → Except String (List SplitterChunk) :=
  fun _ => .ok [⟨0, 1, 1⟩]

/-- The registry with every grammar handle stubbed by `oneChunk`. -/
def demoLangs : List Language := get_languages oneChunk oneChunk oneChunk oneChunk

/-- Root with two readable sub-directories, each holding one `.rs` file. -/
def twoSubdirTree : List FsEntry :=
  [ .dir "A" true [.file "a.rs" "x\n"],
    .dir "B" true [.file "b.rs" "x\n"] ]

/-- A splitter stub producing one chunk spanning the first two lines. -/
def twoLineChunk : String → Except String (List SplitterChunk) :=
  fun _ => .ok [⟨0, 2, 2⟩]

/-- The registry with every grammar handle stubbed by `twoLineChunk`. -/
def twoLineLangs : List Language :=
  get_languages twoLineChunk twoLineChunk twoLineChunk twoLineChunk

/-- A splitter stub reporting a row range past the end of a short file. -/
def badChunk : String → Except String (List SplitterChunk) :=
  fun _ => .ok [⟨0, 5, 1⟩]

/-- The registry with every grammar handle stubbed by `badChunk`. -/
def badLangs : List Language := get_languages badChunk badChunk badChunk badChunk

/-- First of two registry entries that both claim the `rs` extension. -/
def dupLang1 : Language :=
  { name := "rustA", extensions := ["rs"], splitFn := oneChunk }

/-- Second of two registry entries that both claim the `rs` extension. -/
def dupLang2 : Language :=
  { name := "rustB", extensions := ["rs"], splitFn := twoLineChunk }

/-! ### Helper lemmas -/

theorem sliceRange_eq_some {xs : List String} {a b : Nat} {ls : List String}
    (h : sliceRange xs a b = some ls) :
    a ≤ b ∧ b ≤ xs.length ∧ ls = (xs.drop a).take (b - a) := by
  unfold sliceRange at h
  split at h
  · rename_i hc
    injection h with h2
    exact ⟨hc.1, hc.2, h2.symm⟩
  · cases h

theorem sliceRange_pos {xs : List String} {a b : Nat}
    (h1 : a ≤ b) (h2 : b ≤ xs.length) :
    sliceRange xs a b = some ((xs.drop a).take (b - a)) := by
  unfold sliceRange
  rw [if_pos ⟨h1, h2⟩]

theorem buildChunks_eq_map (fp fn : String) (lines : List String)
    (cs : List SplitterChunk)
    (hb : ∀ c ∈ cs, c.startRow ≤ c.endRow ∧ c.endRow ≤ lines.length) :
    buildChunks fp fn lines cs = .ok (cs.map (recordOfChunk fp fn lines)) := by
  induction cs with
  | nil => rfl
  | cons c cs ih =>
    have hc := hb c (List.mem_cons_self _ _)
    have hrest : ∀ c2 ∈ cs, c2.startRow ≤ c2.endRow ∧ c2.endRow ≤ lines.length :=
      fun c2 h2 => hb c2 (List.mem_cons_of_mem _ h2)
    unfold buildChunks
    rw [sliceRange_pos hc.1 hc.2, ih hrest]
    rfl

theorem buildChunks_mem_text {fp fn : String} {lines : List String}
    {cs : List SplitterChunk} {records : List ChunkMetadata}
    (h : buildChunks fp fn lines cs = .ok records) :
    ∀ r ∈ records, ∃ ls, sliceRange lines r.start_line r.end_line = some ls ∧
      r.text = if joinLines ls = "" then none else some (joinLines ls) := by
  induction cs generalizing records with
  | nil =>
    unfold buildChunks at h
    injection h with h2
    subst h2
    intro r hr
    cases hr
  | cons c cs ih =>
    unfold buildChunks at h
    cases hs : sliceRange lines c.startRow c.endRow with
    | none => rw [hs] at h; cases h
    | some ls =>
      rw [hs] at h
      cases hrec : buildChunks fp fn lines cs with
      | error p => rw [hrec] at h; simp [Except.map] at h
      | ok rest =>
        rw [hrec] at h
        simp only [Except.map] at h
        injection h with h2
        subst h2
        intro r hr
        rcases List.mem_cons.mp hr with h1 | h2
        · subst h1
          refine ⟨ls, hs, ?_⟩
          obtain ⟨_, _, hls⟩ := sliceRange_eq_some hs
          subst hls
          rfl
        · exact ih hrec r h2

theorem buildChunks_ok_bounds {fp fn : String} {lines : List String}
    {cs : List SplitterChunk} {records : List ChunkMetadata}
    (h : buildChunks fp fn lines cs = .ok records) :
    ∀ c ∈ cs, c.startRow ≤ c.endRow ∧ c.endRow ≤ lines.length := by
  induction cs generalizing records with
  | nil => intro c hc; cases hc
  | cons c cs ih =>
    unfold buildChunks at h
    cases hs : sliceRange lines c.startRow c.endRow with
    | none => rw [hs] at h; cases h
    | some ls =>
      rw [hs] at h
      cases hrec : buildChunks fp fn lines cs with
      | error p => rw [hrec] at h; simp [Except.map] at h
      | ok rest =>
        intro c2 hc2
        rcases List.mem_cons.mp hc2 with h1 | h2
        · subst h1
          obtain ⟨ha, hb2, _⟩ := sliceRange_eq_some hs
          exact ⟨ha, hb2⟩
        · exact ih hrec c2 h2

theorem buildChunks_oob {fp fn : String} {lines : List String}
    {cs : List SplitterChunk}
    (h : ∃ c ∈ cs, ¬(c.startRow ≤ c.endRow ∧ c.endRow ≤ lines.length)) :
    buildChunks fp fn lines cs = .error .sliceOutOfRange := by
  induction cs with
  | nil => obtain ⟨c, hc, _⟩ := h; cases hc
  | cons c cs ih =>
    obtain ⟨c2, hc2, hbad⟩ := h
    rcases List.mem_cons.mp hc2 with h1 | h2
    · subst h1
      have hs : sliceRange lines c2.startRow c2.endRow = none := by
        unfold sliceRange
        exact if_neg hbad
      simp only [buildChunks, hs]
    · cases hs : sliceRange lines c.startRow c.endRow with
      | none => simp only [buildChunks, hs]
      | some ls =>
        simp only [buildChunks, hs]
        rw [ih ⟨c2, h2, hbad⟩]
        rfl

theorem process_file_ok_elim {langs : List Language} {fp fn content : String}
    {records : List ChunkMetadata}
    (h : process_file langs fp fn content = .ok (some records)) :
    ∃ ext lang chunks, extOf fn = some ext ∧
      langs.find? (fun l => l.extensions.contains ext) = some lang ∧
      lang.splitFn content = .ok chunks ∧
      buildChunks fp fn (rustLines content) chunks = .ok records := by
  cases he : extOf fn with
  | none => simp only [process_file, he] at h; cases h
  | some ext =>
    cases hf : langs.find? (fun l => l.extensions.contains ext) with
    | none => simp only [process_file, he, hf] at h; simp at h
    | some lang =>
      cases hsf : lang.splitFn content with
      | error e =>
        simp only [process_file, he, hf, chunksForLang, split_file, hsf, Except.map] at h
        simp at h
      | ok cs =>
        cases hb : buildChunks fp fn (rustLines content) cs with
        | error p =>
          simp only [process_file, he, hf, chunksForLang, split_file, hsf, Except.map, hb] at h
          cases h
        | ok rs =>
          simp only [process_file, he, hf, chunksForLang, split_file, hsf, Except.map, hb,
            Except.ok.injEq, Option.some.injEq] at h
          subst h
          exact ⟨ext, lang, cs, rfl, hf, hsf, hb⟩

theorem process_file_text_ne {langs : List Language} {fp fn content : String}
    {records : List ChunkMetadata}
    (h : process_file langs fp fn content = .ok (some records)) :
    ∀ r ∈ records, ∀ t, r.text = some t → t ≠ "" := by
  intro r hr t ht
  obtain ⟨_, _, _, _, _, _, hb⟩ := process_file_ok_elim h
  obtain ⟨ls, _, htext⟩ := buildChunks_mem_text hb r hr
  rw [ht] at htext
  by_cases hj : joinLines ls = ""
  · rw [if_pos hj] at htext; cases htext
  · rw [if_neg hj] at htext
    injection htext with h2
    rw [h2]
    exact hj

theorem processEntries_text_ne {langs : List Language} {dirPath : String}
    {es : List FsEntry} {out : List ChunkMetadata × List PendingDir}
    (h : processEntries langs dirPath es = .ok out) :
    ∀ r ∈ out.1, ∀ t, r.text = some t → t ≠ "" := by
  induction es generalizing out with
  | nil =>
    unfold processEntries at h
    injection h with h2
    subst h2
    intro r hr
    cases hr
  | cons e rest ih =>
    cases e with
    | dir name readable sub =>
      unfold processEntries at h
      cases hrec : processEntries langs dirPath rest with
      | error p => rw [hrec] at h; simp [Except.map] at h
      | ok r2 =>
        rw [hrec] at h
        simp only [Except.map] at h
        injection h with h2
        subst h2
        exact fun r hr => ih hrec r hr
    | file name content =>
      unfold processEntries at h
      cases hpf : process_file langs (dirPath ++ "/" ++ name) name content with
      | error p => rw [hpf] at h; cases h
      | ok maybe =>
        rw [hpf] at h
        cases maybe with
        | none => exact ih h
        | some cs =>
          cases hrec : processEntries langs dirPath rest with
          | error p => rw [hrec] at h; simp [Except.map] at h
          | ok r2 =>
            rw [hrec] at h
            simp only [Except.map] at h
            injection h with h2
            subst h2
            intro r hr t ht
            rcases List.mem_append.mp hr with h1 | h2
            · exact process_file_text_ne hpf r h1 t ht
            · exact ih hrec r h2 t ht

theorem drain_text_ne {langs : List Language} {fuel : Nat} {dirPath : String}
    {es : List FsEntry} {records : List ChunkMetadata}
    (h : codeFileSplitterDrain langs fuel dirPath es = .ok records) :
    ∀ r ∈ records, ∀ t, r.text = some t → t ≠ "" := by
  induction fuel generalizing dirPath es records with
  | zero =>
    unfold codeFileSplitterDrain at h
    injection h with h2
    subst h2
    intro r hr
    cases hr
  | succ fuel ih =>
    cases hpe : processEntries langs dirPath es with
    | error p => simp [codeFileSplitterDrain, hpe] at h
    | ok r2 =>
      cases hfr : findFirstReadable r2.2 with
      | none =>
        simp only [codeFileSplitterDrain, hpe, hfr, Except.ok.injEq] at h
        subst h
        exact processEntries_text_ne hpe
      | some d =>
        cases hrec : codeFileSplitterDrain langs fuel d.path d.entries with
        | error p => simp [codeFileSplitterDrain, hpe, hfr, hrec, Except.map] at h
        | ok more =>
          simp only [codeFileSplitterDrain, hpe, hfr, hrec, Except.map,
            Except.ok.injEq] at h
          subst h
          intro r hr t ht
          rcases List.mem_append.mp hr with h1 | h2
          · exact processEntries_text_ne hpe r h1 t ht
          · exact ih hrec r h2 t ht

theorem assemble_texts_mem {rs : List ChunkMetadata} {t : String}
    (h : t ∈ (assemble rs).texts) : ∃ r ∈ rs, r.text = some t := by
  induction rs with
  | nil => cases h
  | cons r rs ih =>
    cases hrt : r.text with
    | none =>
      simp only [assemble, hrt] at h
      obtain ⟨r2, hr2, ht2⟩ := ih h
      exact ⟨r2, List.mem_cons_of_mem _ hr2, ht2⟩
    | some t2 =>
      simp only [assemble, hrt] at h
      rcases List.mem_cons.mp h with h1 | h2
      · subst h1
        exact ⟨r, List.mem_cons_self _ _, hrt⟩
      · obtain ⟨r2, hr2, ht2⟩ := ih h2
        exact ⟨r2, List.mem_cons_of_mem _ hr2, ht2⟩

/-! ### Claim theorems -/

/-- C1: the claim says the traversal visits every regular file reachable
under the root; the code does not. With a root holding two readable
sub-directories, each with one `.rs` file, the file under `B` is reachable,
yet the full drain hands only the file under `A` to the chunker: the
directories loop (`src/split.rs` lines 77–81) pops the whole stack and
keeps only the cursor of the first readable directory. -/
theorem c1_sibling_directory_files_lost :
    ReachesFile "root" twoSubdirTree "root/B/b.rs" ∧
    (codeFileSplitterDrain demoLangs 5 "root" twoSubdirTree).map
        (fun rs => rs.map ChunkMetadata.file_path) = .ok ["root/A/a.rs"] := by
  constructor
  · exact ReachesFile.deeper "root" twoSubdirTree "B" [FsEntry.file "b.rs" "x\n"] _
      (List.mem_cons_of_mem _ (List.mem_cons_self _ _))
      (ReachesFile.here _ _ "b.rs" "x\n" (List.mem_cons_self _ _))
  · rfl

/-- C2: the claim says a file without any extension must not terminate the
traversal; the code calls `path.extension().unwrap()` (`src/split.rs` line
104), which panics on such a file and aborts the whole drain — the `.rs`
file listed after it is never processed. -/
theorem c2_extensionless_file_aborts :
    codeFileSplitterDrain demoLangs 5 "root"
        [FsEntry.file "README" "hello\n", FsEntry.file "a.rs" "x\n"]
      = .error .unwrapNone := rfl

/-- C3 counterexample: a chunk whose joined lines are all whitespace keeps
`text = some "   "` — present and untrimmed — where the claim demands
trimming and absence. -/
theorem c3_counterexample :
    process_file demoLangs "root/w.rs" "w.rs" "   \n"
      = .ok (some [{ file_path := "root/w.rs", file_name := "w.rs", start_line := 0
                     end_line := 1, text := some "   ", size := 1 }]) ∧
    "   ".toList.all (fun c => c == ' ') = true :=
  ⟨rfl, rfl⟩

/-- C3 (amended): for every record produced for a file, `text` is the
newline-join of the lines of the file over `[startLine, endLine)` taken
verbatim — no trimming — and is absent exactly when that join is the empty
string. -/
theorem c3_text_verbatim_join (langs : List Language) (fp fn content : String)
    (records : List ChunkMetadata)
    (h : process_file langs fp fn content = .ok (some records)) :
    ∀ r ∈ records,
      ∃ ls, sliceRange (rustLines content) r.start_line r.end_line = some ls ∧
        r.text = if joinLines ls = "" then none else some (joinLines ls) := by
  obtain ⟨_, _, _, _, _, _, hb⟩ := process_file_ok_elim h
  exact buildChunks_mem_text hb

/-- C3 witness: a one-line rust file with one chunk over `[0, 1)`; the join
is `"x"`, non-empty, so the text is exactly `some "x"`. -/
theorem c3_witness :
    ∃ ls, sliceRange (rustLines "x\n") 0 1 = some ls ∧
      (some "x" : Option String) = if joinLines ls = "" then none else some (joinLines ls) :=
  c3_text_verbatim_join demoLangs "root/a.rs" "a.rs" "x\n"
    [{ file_path := "root/a.rs", file_name := "a.rs", start_line := 0, end_line := 1,
       text := some "x", size := 1 }] rfl _ (List.mem_cons_self _ _)

/-- C4: rows of the dataset assembled by `find_and_split` never carry an
empty text: records with absent `text` are dropped by the assembler loop,
and a present `text` is non-empty by construction, so the count of rows
whose text is the empty string is zero. -/
theorem c4_no_empty_text (langs : List Language) (fuel : Nat) (rootPath : String)
    (rootEntries : List FsEntry) (createOk writeOk : Bool) (d : Dataset)
    (h : find_and_split langs fuel rootPath rootEntries createOk writeOk = .ok d) :
    d.texts.count "" = 0 := by
  cases createOk with
  | false => simp [find_and_split] at h
  | true =>
    cases hdr : codeFileSplitterDrain langs fuel rootPath rootEntries with
    | error p => simp [find_and_split, hdr] at h
    | ok records =>
      cases writeOk with
      | false => simp [find_and_split, hdr] at h
      | true =>
        simp only [find_and_split, hdr, if_true, RunResult.ok.injEq] at h
        subst h
        rw [List.count_eq_zero]
        intro hmem
        obtain ⟨r, hr, ht⟩ := assemble_texts_mem hmem
        exact drain_text_ne hdr r hr "" ht rfl

/-- C4 witness: a successful run over a one-file tree produces the dataset
below, and the theorem yields that its text column has no empty entry. -/
theorem c4_witness :
    (Dataset.mk ["root/a.rs"] ["a.rs"] [0] [1] ["x"] [1]).texts.count "" = 0 :=
  c4_no_empty_text demoLangs 2 "root" [FsEntry.file "a.rs" "x\n"] true true _ rfl

/-- C5: for a file whose extension resolves to a registry language and
whose splitter succeeds with at least one chunk whose row range lies within
the line count of the file — the contract of the external splitter — extraction
yields one record per chunk, the row boundaries are passed through
verbatim, and every record satisfies
`start_line ≤ end_line ≤ totalLineCount`. -/
theorem c5_bounds_and_verbatim (langs : List Language) (fp fn content ext : String)
    (lang : Language) (chunks : List SplitterChunk)
    (hExt : extOf fn = some ext)
    (hFind : langs.find? (fun l => l.extensions.contains ext) = some lang)
    (hSplit : lang.splitFn content = .ok chunks)
    (hNE : chunks ≠ [])
    (hB : ∀ c ∈ chunks, c.startRow ≤ c.endRow ∧ c.endRow ≤ (rustLines content).length) :
    process_file langs fp fn content
        = .ok (some (chunks.map (recordOfChunk fp fn (rustLines content)))) ∧
    chunks.map (recordOfChunk fp fn (rustLines content)) ≠ [] ∧
    (∀ c ∈ chunks,
      (recordOfChunk fp fn (rustLines content) c).start_line = c.startRow ∧
      (recordOfChunk fp fn (rustLines content) c).end_line = c.endRow) ∧
    ∀ r ∈ chunks.map (recordOfChunk fp fn (rustLines content)),
      r.start_line ≤ r.end_line ∧ r.end_line ≤ (rustLines content).length := by
  refine ⟨?_, ?_, ?_, ?_⟩
  · simp only [process_file, hExt, hFind, chunksForLang, split_file, hSplit, Except.map,
      buildChunks_eq_map fp fn (rustLines content) chunks hB]
  · intro hmap
    exact hNE (List.map_eq_nil_iff.mp hmap)
  · intro c _
    exact ⟨rfl, rfl⟩
  · intro r hr
    obtain ⟨c, hc, hrc⟩ := List.mem_map.mp hr
    subst hrc
    exact hB c hc

/-- C5 witness: a one-line rust file and a single splitter chunk `[0, 1)`
meeting the splitter contract. -/
theorem c5_witness :
    process_file demoLangs "root/m.rs" "m.rs" "fn f()\n"
      = .ok (some (([⟨0, 1, 1⟩] : List SplitterChunk).map
          (recordOfChunk "root/m.rs" "m.rs" (rustLines "fn f()\n")))) :=
  (c5_bounds_and_verbatim demoLangs "root/m.rs" "m.rs" "fn f()\n" "rs"
    { name := "rust", extensions := ["rs"], splitFn := oneChunk } [⟨0, 1, 1⟩]
    rfl rfl rfl (by decide) (by decide)).1

/-- C6: the claim says only output create/write failures abort dataset
production; with a perfectly healthy output (`createOk`, `writeOk` both
true), a per-file condition — an extensionless file inside a readable
sub-directory — panics and aborts the whole `find_and_split` call. -/
theorem c6_per_file_panic_aborts_production :
    find_and_split demoLangs 5 "root"
        [FsEntry.dir "sub" true [FsEntry.file "NOTES" "n\n"]] true true
      = .panicked .unwrapNone := rfl

/-- C7: for every kept record (one whose `text` is present), re-joining the
lines of the original file over `[start_line, end_line)` with newline separators
reproduces the stored text exactly. -/
theorem c7_rejoin_reproduces_text (langs : List Language) (fp fn content : String)
    (records : List ChunkMetadata) (r : ChunkMetadata) (t : String)
    (h : process_file langs fp fn content = .ok (some records))
    (hr : r ∈ records) (ht : r.text = some t) :
    ∃ ls, sliceRange (rustLines content) r.start_line r.end_line = some ls ∧
      joinLines ls = t := by
  obtain ⟨_, _, _, _, _, _, hb⟩ := process_file_ok_elim h
  obtain ⟨ls, hs, htext⟩ := buildChunks_mem_text hb r hr
  rw [ht] at htext
  by_cases hj : joinLines ls = ""
  · rw [if_pos hj] at htext
    cases htext
  · rw [if_neg hj] at htext
    injection htext with h2
    exact ⟨ls, hs, h2.symm⟩

/-- C7 witness: a two-line rust file with a chunk spanning both lines; the
stored text is the exact newline join of the sliced lines. -/
theorem c7_witness :
    ∃ ls, sliceRange (rustLines "a\nb\n") 0 2 = some ls ∧ joinLines ls = "a\nb" :=
  c7_rejoin_reproduces_text twoLineLangs "root/c.rs" "c.rs" "a\nb\n"
    [{ file_path := "root/c.rs", file_name := "c.rs", start_line := 0, end_line := 2,
       text := some "a\nb", size := 2 }]
    { file_path := "root/c.rs", file_name := "c.rs", start_line := 0, end_line := 2,
      text := some "a\nb", size := 2 } "a\nb"
    rfl (List.mem_cons_self _ _) rfl

/-- C8: extension dispatch is first-match-wins — with the matching entry in
front, processing behaves as that entry regardless of later (possibly
duplicate) entries — and an extension matching no registry entry yields no
language, zero chunks and no error or panic. -/
theorem c8_first_match_dispatch (l : Language) (rest langs : List Language)
    (fp fn content ext : String) (hExt : extOf fn = some ext) :
    (l.extensions.contains ext = true →
      process_file (l :: rest) fp fn content = chunksForLang l fp fn content) ∧
    ((∀ l2 ∈ langs, l2.extensions.contains ext = false) →
      process_file langs fp fn content = .ok none) := by
  constructor
  · intro hc
    have hfind : (l :: rest).find? (fun l2 => l2.extensions.contains ext) = some l :=
      List.find?_cons_of_pos _ hc
    simp only [process_file, hExt, hfind]
  · intro hall
    have hnone : langs.find? (fun l2 => l2.extensions.contains ext) = none := by
      rw [List.find?_eq_none]
      intro x hx
      simpa using hall x hx
    simp only [process_file, hExt, hnone]

/-- C8 witness: a registry with two entries both claiming `rs` uses the
first; an extension nobody claims yields `ok none`. -/
theorem c8_witness :
    process_file [dupLang1, dupLang2] "root/m.rs" "m.rs" "x\n"
        = chunksForLang dupLang1 "root/m.rs" "m.rs" "x\n" ∧
    process_file [dupLang1, dupLang2] "root/m.txt" "m.txt" "x\n" = .ok none :=
  ⟨(c8_first_match_dispatch dupLang1 [dupLang2] [dupLang1, dupLang2]
      "root/m.rs" "m.rs" "x\n" "rs" rfl).1 rfl,
   (c8_first_match_dispatch dupLang1 [dupLang2] [dupLang1, dupLang2]
      "root/m.txt" "m.txt" "x\n" "txt" rfl).2 (by decide)⟩

/-- C9: the indexing entry point branches on the `open_table` existence
probe: any probe failure selects creating the table from the batch, and a
successful probe selects appending the batch to the opened table. -/
theorem c9_probe_branches (probeResult : Except String TableHandle)
    (batch : List String) :
    (∀ e, probeResult = .error e → indexBranch probeResult batch = .createTable batch) ∧
    (∀ t, probeResult = .ok t → indexBranch probeResult batch = .appendRows t batch) := by
  constructor
  · intro e he
    subst he
    rfl
  · intro t ht
    subst ht
    rfl

/-- C9 witness: a failing probe creates, a succeeding probe appends. -/
theorem c9_witness :
    indexBranch (Except.error "no table") ["row1"] = .createTable ["row1"] ∧
    indexBranch (Except.ok ⟨"codebases"⟩) ["row1"] = .appendRows ⟨"codebases"⟩ ["row1"] :=
  ⟨(c9_probe_branches (Except.error "no table") ["row1"]).1 "no table" rfl,
   (c9_probe_branches (Except.ok ⟨"codebases"⟩) ["row1"]).2 ⟨"codebases"⟩ rfl⟩

/-- C10: building the records slices `lines[startRow..endRow]` unchecked:
whenever processing succeeds the `endRow` of every splitter chunk is at most the
line count of the terminator-stripped line splitting, and a chunk whose
`endRow` exceeds that count makes `process_file` panic — there is no guard
or graceful error path. -/
theorem c10_slice_requires_bounds (langs : List Language) (fp fn content ext : String)
    (lang : Language) (chunks : List SplitterChunk)
    (hExt : extOf fn = some ext)
    (hFind : langs.find? (fun l => l.extensions.contains ext) = some lang)
    (hSplit : lang.splitFn content = .ok chunks) :
    (∀ records, process_file langs fp fn content = .ok (some records) →
      ∀ c ∈ chunks, c.endRow ≤ (rustLines content).length) ∧
    ((∃ c ∈ chunks, (rustLines content).length < c.endRow) →
      process_file langs fp fn content = .error .sliceOutOfRange) := by
  have hpf : process_file langs fp fn content
      = (buildChunks fp fn (rustLines content) chunks).map some := by
    simp only [process_file, hExt, hFind, chunksForLang, split_file, hSplit, Except.map]
  constructor
  · intro records h c hc
    rw [hpf] at h
    cases hb : buildChunks fp fn (rustLines content) chunks with
    | error p => rw [hb] at h; cases h
    | ok rs => exact (buildChunks_ok_bounds hb c hc).2
  · intro hex
    obtain ⟨c, hc, hlen⟩ := hex
    rw [hpf, buildChunks_oob ⟨c, hc, fun hcon => absurd hcon.2 (Nat.not_le.mpr hlen)⟩]
    rfl

/-- C10 witness: a splitter chunk claiming rows `[0, 5)` over a one-line
file makes `process_file` panic with the slice out of range. -/
theorem c10_witness :
    process_file badLangs "root/a.rs" "a.rs" "x\n" = .error .sliceOutOfRange :=
  (c10_slice_requires_bounds badLangs "root/a.rs" "a.rs" "x\n" "rs"
    { name := "rust", extensions := ["rs"], splitFn := badChunk } [⟨0, 5, 1⟩]
    rfl rfl rfl).2 ⟨⟨0, 5, 1⟩, by decide, by decide⟩

end SemanticCodeSearch
